import Mathlib

/-!
Verification of the pyanno model B-with-theta core (pyanno/modelBt.py).

The numeric type of the source (IEEE floats) is modelled by exact rationals.
External collaborators that live outside the core module (the categorical
sampling primitive, the Beta log-density, the counts reduction and the
derivative-free minimizer from pyanno.util / scipy) are passed in as
explicit function parameters, modelled from the spec.
-/

/-- All ordered triples of labels below n, in np.ndindex (lexicographic)
order.  Source: get_triplet_combinations. -/
def tripletCombinations (n : ℕ) : List (ℕ × ℕ × ℕ) :=
  (List.range n).flatMap (fun a =>
    (List.range n).flatMap (fun b =>
      (List.range n).map (fun c => (a, b, c))))

/-- Emission probability of reported label v given true label psi: theta if
v = psi, else (1 - theta)/(nclasses - 1).  Source: the np.where selection in
pattern_frequencies. -/
def emission (n : ℕ) (t : ℚ) (v psi : ℕ) : ℚ :=
  if v = psi then t else (1 - t) / ((n : ℚ) - 1)

/-- One entry of the pattern-frequency vector: the accumulation over psi of
prod(1) * gamma[psi] in the source loop of pattern_frequencies. -/
def patternProb (n : ℕ) (gamma t : List ℚ) (v : ℕ × ℕ × ℕ) : ℚ :=
  ((List.range n).map (fun psi =>
    emission n (t.getD 0 0) v.1 psi *
      emission n (t.getD 1 0) v.2.1 psi *
      emission n (t.getD 2 0) v.2.2 psi * gamma.getD psi 0)).sum

/-- P(v_ijk | params) for every ordered label triple, in ndindex order.
Source: pattern_frequencies. -/
def pattern_frequencies (n : ℕ) (gamma t : List ℚ) : List ℚ :=
  (tripletCombinations n).map (patternProb n gamma t)

/-- Python builtin min over a list; the source only applies it to nonempty
lists (gamma and a theta triplet), the empty case is an arbitrary default. -/
def pyMin : List ℚ → ℚ
  | [] => 0
  | a :: as => as.foldl min a

/-- Python builtin max over a list; the source only applies it to nonempty
lists, the empty case is an arbitrary default. -/
def pyMax : List ℚ → ℚ
  | [] => 0
  | a :: as => as.foldl max a

/-- Log likelihood of the count data of one annotator triplet.  The log and
the Beta(2,1) log-density (pyanno.util.log_beta_pdf, outside the core) are
explicit function parameters.  Source: log_likelihood_triplet. -/
def log_likelihood_triplet (log lbp : ℚ → ℚ) (use_priors : Bool) (n : ℕ)
    (gamma counts_triplet theta_triplet : List ℚ) : ℚ :=
  if min (pyMin gamma) (pyMin theta_triplet) < 0 ∨
      1 < max (pyMax gamma) (pyMax theta_triplet) then
    -(10 ^ 20)
  else
    (if use_priors then (theta_triplet.map lbp).sum else 0) +
      (List.zipWith (fun c p => c * log p) counts_triplet
        (pattern_frequencies n gamma theta_triplet)).sum

/-- Insertion of a value into a sorted list of naturals. -/
def insertSorted (x : ℕ) : List ℕ → List ℕ
  | [] => [x]
  | y :: ys => if x ≤ y then x :: y :: ys else y :: insertSorted x ys

/-- Insertion sort on lists of naturals, modelling ndarray.sort. -/
def sortList : List ℕ → List ℕ
  | [] => []
  | x :: xs => insertSorted x (sortList xs)

/-- Sorted annotator indices np.arange(i, i+3) % 8 of lineup i.
Source: the triplet_indices computation in log_likelihood_counts. -/
def tripletIndices (i : ℕ) : List ℕ :=
  sortList ((List.range 3).map (fun k => (i + k) % 8))

/-- The theta parameters of lineup i: theta[triplet_indices]. -/
def tripletTheta (theta : List ℚ) (i : ℕ) : List ℚ :=
  (tripletIndices i).map (fun k => theta.getD k 0)

/-- Column i of a counts matrix, modelling counts[:, i]. -/
def column (counts : List (List ℚ)) (i : ℕ) : List ℚ :=
  counts.map (fun row => row.getD i 0)

/-- Log likelihood of annotations in counts format: the accumulation over
the 8 annotator lineups.  Source: log_likelihood_counts. -/
def log_likelihood_counts (log lbp : ℚ → ℚ) (use_priors : Bool) (n : ℕ)
    (gamma theta : List ℚ) (counts : List (List ℚ)) : ℚ :=
  (List.range 8).foldl
    (fun acc i =>
      acc + log_likelihood_triplet log lbp use_priors n gamma
        (column counts i) (tripletTheta theta i))
    0

/-- P(v_i = psi | theta_i) as a categorical distribution: an array filled
with (1 - theta)/(nclasses - 1) whose entry psi is set to theta.
Source: theta_to_categorical. -/
def theta_to_categorical (n : ℕ) (theta : ℚ) (psi : ℕ) : List ℚ :=
  (List.replicate n ((1 - theta) / ((n : ℚ) - 1))).set psi theta

/-- Flattening of (gamma, theta) for the optimizer: gamma without its last
(dependent) component, followed by theta.  Source: params_to_vector. -/
def params_to_vector (gamma theta : List ℚ) : List ℚ :=
  gamma.dropLast ++ theta

/-- Reconstruction of (gamma, theta) from a flat parameter vector; the last
gamma component is 1 minus the sum of the others.  Source: vector_to_params. -/
def vector_to_params (n : ℕ) (params : List ℚ) : List ℚ × List ℚ :=
  (params.take (n - 1) ++ [1 - (params.take (n - 1)).sum],
   params.drop (n - 1))

/-- Annotator columns masked to the missing value for loop-design block l:
np.arange(l + 3, l + 8) % 8.  Source: the masking loop of
generate_annotations. -/
def maskedCols (l : ℕ) : List ℕ :=
  (List.range' (l + 3) 5).map (fun k => k % 8)

/-- Whether cell (i, j) is overwritten with the missing value by the masking
loop of generate_annotations (block l covers rows l*(nitems/8) up to
(l+1)*(nitems/8)). -/
def isMasked (nitems i j : ℕ) : Bool :=
  (List.range 8).any (fun l =>
    decide (l * (nitems / 8) ≤ i) && decide (i < (l + 1) * (nitems / 8)) &&
      (maskedCols l).contains j)

/-- theta_to_categorical together with its closing assertion
assert np.allclose(distr.sum(), 1.): in the exact-rational model allclose is
exact equality, and an assertion failure (which the source raises as an
AssertionError, e.g. at nclasses = 1 with theta different from 1) is
modelled by none. -/
def theta_to_categorical_checked (n : ℕ) (theta : ℚ) (psi : ℕ) : Option (List ℚ) :=
  if (theta_to_categorical n theta psi).sum = 1 then
    some (theta_to_categorical n theta psi)
  else none

/-- One cell of the drawn-then-masked annotation matrix.  The categorical
sampling primitive (pyanno.util.random_categorical, outside the core) is the
oracle parameter rand, modelled from the spec: given a discrete distribution
it returns an index into the distribution. -/
def annotationEntry (n nitems : ℕ) (theta : List ℚ) (labels : List ℕ)
    (rand : ℕ → ℕ → List ℚ → ℕ) (i j : ℕ) : ℤ :=
  if isMasked nitems i j then -1
  else (rand i j (theta_to_categorical n (theta.getD j 0) (labels.getD i 0)) : ℤ)

/-- The annotation matrix produced when no cell raises: per-cell categorical
draws overwritten by the loop-design masking. -/
def annotationMatrix (n nitems : ℕ) (theta : List ℚ) (labels : List ℕ)
    (rand : ℕ → ℕ → List ℚ → ℕ) : List (List ℤ) :=
  (List.range nitems).map (fun i =>
    (List.range 8).map (fun j => annotationEntry n nitems theta labels rand i j))

/-- Random annotations given labels.  The source draws one categorical value
for every cell (i, j) -- each draw passing through the sum-to-1 assertion
inside theta_to_categorical -- and only then applies the loop-design mask;
an assertion failure at any cell aborts the whole call before a matrix is
returned, modelled by none.  Source: generate_annotations. -/
def generate_annotations (n nitems : ℕ) (theta : List ℚ) (labels : List ℕ)
    (rand : ℕ → ℕ → List ℚ → ℕ) : Option (List (List ℤ)) :=
  if (List.range nitems).all (fun i => (List.range 8).all (fun j =>
      (theta_to_categorical_checked n (theta.getD j 0)
        (labels.getD i 0)).isSome))
  then some (annotationMatrix n nitems theta labels rand)
  else none

/-- The annotator columns a row of block l keeps unmasked: the complement of
maskedCols l among the 8 annotators. -/
def unmaskedCols (l : ℕ) : List ℕ :=
  (List.range 8).filter (fun j => !((maskedCols l).contains j))

/-- Modelled from the spec: maximum-likelihood fit.  The counts reduction
(pyanno.util.compute_counts, outside the core) is the parameter cc, an
Except-valued validator that fails on structurally inconsistent input; the
derivative-free minimizer (scipy.optimize.fmin) is the total parameter fmin;
the random initial vector is the parameter params0.  Source: mle. -/
def mle (cc : List (List ℤ) → Except String (List (List ℚ)))
    (fmin : (List ℚ → ℚ) → List ℚ → List ℚ)
    (log lbp : ℚ → ℚ) (use_priors : Bool) (n : ℕ) (params0 : List ℚ)
    (annotations : List (List ℤ)) : Except String (List ℚ × List ℚ) :=
  (cc annotations).bind (fun counts =>
    Except.ok (vector_to_params n (fmin
      (fun params =>
        -(log_likelihood_counts log lbp use_priors n
          (vector_to_params n params).1 (vector_to_params n params).2 counts))
      params0)))

/-! ## Supporting lemmas -/

lemma foldl_min_le_init (as : List ℚ) : ∀ a : ℚ, as.foldl min a ≤ a := by
  induction as with
  | nil => intro a; exact le_rfl
  | cons b bs ih =>
      intro a
      exact le_trans (ih (min a b)) (min_le_left a b)

lemma foldl_min_le_mem (as : List ℚ) : ∀ a x : ℚ, x ∈ as → as.foldl min a ≤ x := by
  induction as with
  | nil => intro a x hx; cases hx
  | cons b bs ih =>
      intro a x hx
      rcases List.mem_cons.mp hx with h | h
      · subst h
        exact le_trans (foldl_min_le_init bs (min a x)) (min_le_right a x)
      · exact ih (min a b) x h

lemma pyMin_le_of_mem {l : List ℚ} {x : ℚ} (hx : x ∈ l) : pyMin l ≤ x := by
  cases l with
  | nil => cases hx
  | cons a as =>
      rcases List.mem_cons.mp hx with h | h
      · subst h; exact foldl_min_le_init as x
      · exact foldl_min_le_mem as a x h

lemma init_le_foldl_max (as : List ℚ) : ∀ a : ℚ, a ≤ as.foldl max a := by
  induction as with
  | nil => intro a; exact le_rfl
  | cons b bs ih =>
      intro a
      exact le_trans (le_max_left a b) (ih (max a b))

lemma mem_le_foldl_max (as : List ℚ) : ∀ a x : ℚ, x ∈ as → x ≤ as.foldl max a := by
  induction as with
  | nil => intro a x hx; cases hx
  | cons b bs ih =>
      intro a x hx
      rcases List.mem_cons.mp hx with h | h
      · subst h
        exact le_trans (le_max_right a x) (init_le_foldl_max bs (max a x))
      · exact ih (max a b) x h

lemma le_pyMax_of_mem {l : List ℚ} {x : ℚ} (hx : x ∈ l) : x ≤ pyMax l := by
  cases l with
  | nil => cases hx
  | cons a as =>
      rcases List.mem_cons.mp hx with h | h
      · subst h; exact init_le_foldl_max as x
      · exact mem_le_foldl_max as a x h

/-! ## C6: Simulator masking agrees with the likelihood lineup decomposition -/

/-- C6: for every loop-design block l below 8, the annotator columns that the
Simulator masking leaves visible are exactly the sorted lineup index set
sort(arange(l, l+3) mod 8) that the likelihood aggregation uses for lineup l. -/
theorem unmasked_cols_eq_lineup_indices :
    ∀ l, l < 8 → unmaskedCols l = tripletIndices l := by decide

/-- Witness for C6 at the wrap-around lineup l = 6. -/
theorem unmasked_cols_eq_lineup_indices_witness :
    unmaskedCols 6 = tripletIndices 6 :=
  unmasked_cols_eq_lineup_indices 6 (by decide)

/-! ## C7: pattern frequencies in the degenerate one-class model -/

/-- C7 counterexample: with nclasses = 1, gamma = [1] and the valid theta
triplet (0, 0, 0), the single entry of pattern_frequencies is 0, not 1 as
claimed. -/
theorem pattern_frequencies_one_class_counterexample :
    pattern_frequencies 1 [1] [0, 0, 0] ≠ [1] := by
  simp [pattern_frequencies, tripletCombinations, patternProb, emission,
    List.range_succ]

/-- C7 amended: with nclasses = 1 and gamma = [1], the single entry of
pattern_frequencies equals the product of the three theta components, so the
whole mass sits on the all-identical pattern exactly when every theta is 1. -/
theorem pattern_frequencies_one_class (t0 t1 t2 : ℚ) :
    pattern_frequencies 1 [1] [t0, t1, t2] = [t0 * t1 * t2] := by
  simp [pattern_frequencies, tripletCombinations, patternProb, emission,
    List.range_succ]

/-! ## C2: parameter vector round trip -/

/-- C2: for gamma of length nclasses summing to 1 and theta of length 8,
vector_to_params inverts params_to_vector exactly. -/
theorem params_vector_roundtrip (n : ℕ) (gamma theta : List ℚ)
    (hg : gamma.length = n) (hs : gamma.sum = 1) (ht : theta.length = 8) :
    vector_to_params n (params_to_vector gamma theta) = (gamma, theta) := by
  have hne : gamma ≠ [] := by
    intro h
    rw [h] at hs
    exact one_ne_zero hs.symm
  have hlen : gamma.dropLast.length = n - 1 := by
    rw [List.length_dropLast, hg]
  have htake : (gamma.dropLast ++ theta).take (n - 1) = gamma.dropLast := by
    rw [← hlen, List.take_left]
  have hdrop : (gamma.dropLast ++ theta).drop (n - 1) = theta := by
    rw [← hlen, List.drop_left]
  have hsplit : gamma.dropLast ++ [gamma.getLast hne] = gamma :=
    List.dropLast_append_getLast hne
  have hlast : gamma.getLast hne = 1 - gamma.dropLast.sum := by
    have : (gamma.dropLast ++ [gamma.getLast hne]).sum = 1 := by rw [hsplit, hs]
    rw [List.sum_append, List.sum_cons, List.sum_nil] at this
    linarith
  unfold vector_to_params params_to_vector
  rw [htake, hdrop, ← hlast, hsplit]

/-- Witness for C2 at nclasses = 2, gamma = [1, 0] and a concrete theta. -/
theorem params_vector_roundtrip_witness :
    vector_to_params 2 (params_to_vector [1, 0] [1, 0, 1, 0, 1, 0, 1, 0])
      = ([1, 0], [1, 0, 1, 0, 1, 0, 1, 0]) :=
  params_vector_roundtrip 2 _ _ rfl (by simp) rfl

/-! ## C3: out-of-domain parameters hit the finite sentinel -/

/-- C3: whenever some component of gamma or of the theta triplet lies
strictly outside [0, 1], log_likelihood_triplet returns the fixed finite
sentinel -1e20, for every choice of log and prior density (in particular no
log of a pattern frequency contributes). -/
theorem log_likelihood_triplet_sentinel (log lbp : ℚ → ℚ) (use_priors : Bool)
    (n : ℕ) (gamma counts_triplet theta_triplet : List ℚ)
    (h : (∃ x ∈ gamma, x < 0 ∨ 1 < x) ∨ (∃ x ∈ theta_triplet, x < 0 ∨ 1 < x)) :
    log_likelihood_triplet log lbp use_priors n gamma counts_triplet theta_triplet
      = -(10 ^ 20) := by
  unfold log_likelihood_triplet
  rw [if_pos]
  rcases h with ⟨x, hx, hlt | hgt⟩ | ⟨x, hx, hlt | hgt⟩
  · exact Or.inl (lt_of_le_of_lt
      (le_trans (min_le_left _ _) (pyMin_le_of_mem hx)) hlt)
  · exact Or.inr (lt_of_lt_of_le hgt
      (le_trans (le_pyMax_of_mem hx) (le_max_left _ _)))
  · exact Or.inl (lt_of_le_of_lt
      (le_trans (min_le_right _ _) (pyMin_le_of_mem hx)) hlt)
  · exact Or.inr (lt_of_lt_of_le hgt
      (le_trans (le_pyMax_of_mem hx) (le_max_right _ _)))

/-- Witness for C3: theta component 2 lies outside [0, 1] and the triplet
likelihood evaluates to the sentinel, with log and the prior density both
instantiated. -/
theorem log_likelihood_triplet_sentinel_witness :
    ((2 : ℚ) < 0 ∨ 1 < (2 : ℚ)) ∧
      log_likelihood_triplet (fun x => x) (fun x => x) true 2 [1, 0]
        [1, 1, 1, 1, 1, 1, 1, 1] [2, 0, 0] = -(10 ^ 20) :=
  ⟨by decide,
   log_likelihood_triplet_sentinel (fun x => x) (fun x => x) true 2 _ _ _
     (Or.inr ⟨2, by decide, by decide⟩)⟩

/-! ## C4: lineup decomposition and order invariance of the counts likelihood -/

lemma foldl_add_eq_sum (f : ℕ → ℚ) (l : List ℕ) :
    ∀ init : ℚ, l.foldl (fun acc i => acc + f i) init = init + (l.map f).sum := by
  induction l with
  | nil => intro init; simp
  | cons a as ih =>
      intro init
      simp [ih, add_assoc]

lemma range_three_map_mod (i : ℕ) :
    (List.range 3).map (fun k => (i + k) % 8) = [i % 8, (i + 1) % 8, (i + 2) % 8] := by
  simp [List.range_succ]

/-- C4: the counts log likelihood is the sum, over the 8 lineups, of the
triplet log likelihood of column i of the counts at the theta components
with sorted indices (i mod 8, (i+1) mod 8, (i+2) mod 8); summing the lineup
terms in any order (any permutation of 0..7) yields the same value. -/
theorem log_likelihood_counts_decomposition (log lbp : ℚ → ℚ)
    (use_priors : Bool) (n : ℕ) (gamma theta : List ℚ)
    (counts : List (List ℚ)) (l : List ℕ) (hl : l.Perm (List.range 8)) :
    log_likelihood_counts log lbp use_priors n gamma theta counts
      = (l.map (fun i =>
          log_likelihood_triplet log lbp use_priors n gamma (column counts i)
            ((sortList [i % 8, (i + 1) % 8, (i + 2) % 8]).map
              (fun k => theta.getD k 0)))).sum := by
  unfold log_likelihood_counts
  rw [foldl_add_eq_sum, zero_add]
  have hperm := (hl.map (fun i =>
    log_likelihood_triplet log lbp use_priors n gamma (column counts i)
      (tripletTheta theta i))).sum_eq
  rw [← hperm]
  refine congrArg List.sum (List.map_congr_left (fun i _ => ?_))
  rw [tripletTheta, tripletIndices, range_three_map_mod]

/-- Witness for C4: a nontrivial permutation of the 8 lineups gives the same
counts log likelihood. -/
theorem log_likelihood_counts_decomposition_witness :
    log_likelihood_counts (fun x => x) (fun x => x) true 2 [1, 0]
        [1, 0, 1, 0, 1, 0, 1, 0] [[1, 1, 1, 1, 1, 1, 1, 1]]
      = ([3, 1, 0, 2, 7, 5, 4, 6].map (fun i =>
          log_likelihood_triplet (fun x => x) (fun x => x) true 2 [1, 0]
            (column [[1, 1, 1, 1, 1, 1, 1, 1]] i)
            ((sortList [i % 8, (i + 1) % 8, (i + 2) % 8]).map
              (fun k => ([1, 0, 1, 0, 1, 0, 1, 0] : List ℚ).getD k 0)))).sum :=
  log_likelihood_counts_decomposition (fun x => x) (fun x => x) true 2 _ _ _ _
    (by decide)

/-! ## C8: validation failure before optimization, no failure during search -/

/-- C8: mle propagates a validation failure of the counts reduction without
invoking the optimizer, and on structurally valid counts it always returns a
fitted parameter pair (domain excursions during the search are absorbed by
the sentinel, so the fit itself never fails). -/
theorem mle_validation (cc : List (List ℤ) → Except String (List (List ℚ)))
    (fmin : (List ℚ → ℚ) → List ℚ → List ℚ) (log lbp : ℚ → ℚ)
    (use_priors : Bool) (n : ℕ) (params0 : List ℚ)
    (annotations : List (List ℤ)) :
    mle cc fmin log lbp use_priors n params0 annotations
      = match cc annotations with
        | Except.error e => Except.error e
        | Except.ok counts =>
            Except.ok (vector_to_params n (fmin
              (fun params =>
                -(log_likelihood_counts log lbp use_priors n
                  (vector_to_params n params).1 (vector_to_params n params).2
                  counts))
              params0)) := by
  unfold mle
  cases cc annotations <;> rfl

/-! ## C9: the theta-derived categorical distribution is a distribution -/

lemma set_replicate_eq (c x : ℚ) :
    ∀ psi n : ℕ, psi < n →
      (List.replicate n c).set psi x
        = List.replicate psi c ++ x :: List.replicate (n - psi - 1) c := by
  intro psi
  induction psi with
  | zero =>
      intro n hn
      cases n with
      | zero => cases hn
      | succ m => simp [List.replicate_succ]
  | succ p ih =>
      intro n hn
      cases n with
      | zero => cases hn
      | succ m =>
          have hm : p < m := Nat.lt_of_succ_lt_succ hn
          simp only [List.replicate_succ, List.set_cons_succ, ih m hm]
          simp [Nat.succ_sub_succ]

lemma getD_replicate_lt (c : ℚ) : ∀ m j : ℕ, j < m → (List.replicate m c).getD j 0 = c := by
  intro m
  induction m with
  | zero => intro j hj; cases hj
  | succ p ih =>
      intro j hj
      cases j with
      | zero => rfl
      | succ k =>
          rw [List.replicate_succ, List.getD_cons_succ]
          exact ih k (Nat.lt_of_succ_lt_succ hj)

/-- C9: for theta in [0, 1], psi a valid class index and at least two
classes, theta_to_categorical yields a length-nclasses vector of nonnegative
entries summing to 1, with entry psi equal to theta and every other entry
equal to (1 - theta)/(nclasses - 1); hence the internal sum-to-1 assertion
of the source holds. -/
theorem theta_to_categorical_spec (n : ℕ) (t : ℚ) (psi : ℕ)
    (hn : 2 ≤ n) (hpsi : psi < n) (h0 : 0 ≤ t) (h1 : t ≤ 1) :
    (theta_to_categorical n t psi).length = n ∧
    (theta_to_categorical n t psi).sum = 1 ∧
    (∀ x ∈ theta_to_categorical n t psi, 0 ≤ x) ∧
    (theta_to_categorical n t psi).getD psi 0 = t ∧
    (∀ j < n, j ≠ psi →
      (theta_to_categorical n t psi).getD j 0 = (1 - t) / ((n : ℚ) - 1)) := by
  set c := (1 - t) / ((n : ℚ) - 1) with hc
  have hform : theta_to_categorical n t psi
      = List.replicate psi c ++ t :: List.replicate (n - psi - 1) c := by
    rw [theta_to_categorical]
    exact set_replicate_eq c t psi n hpsi
  have hnQ : (2 : ℚ) ≤ (n : ℚ) := by exact_mod_cast hn
  have hne : ((n : ℚ) - 1) ≠ 0 := by linarith
  have hcnn : 0 ≤ c := by
    rw [hc]
    apply div_nonneg <;> linarith
  have hcast : ((n - psi - 1 : ℕ) : ℚ) = (n : ℚ) - (psi : ℚ) - 1 := by
    have hle : psi + 1 ≤ n := hpsi
    rw [Nat.sub_sub, Nat.cast_sub hle]
    push_cast
    ring
  refine ⟨?_, ?_, ?_, ?_, ?_⟩
  · rw [hform]
    simp only [List.length_append, List.length_replicate, List.length_cons]
    omega
  · rw [hform, List.sum_append, List.sum_cons, List.sum_replicate,
      List.sum_replicate, nsmul_eq_mul, nsmul_eq_mul]
    have hfact : (psi : ℚ) * c + ((n - psi - 1 : ℕ) : ℚ) * c
        = ((n : ℚ) - 1) * c := by
      rw [hcast]; ring
    have hc1 : ((n : ℚ) - 1) * c = 1 - t := by
      rw [hc]
      field_simp
    linarith
  · intro x hx
    rw [hform] at hx
    rcases List.mem_append.mp hx with h | h
    · exact (List.eq_of_mem_replicate h) ▸ hcnn
    · rcases List.mem_cons.mp h with h | h
      · exact h ▸ h0
      · exact (List.eq_of_mem_replicate h) ▸ hcnn
  · rw [hform, List.getD_append_right _ _ _ _ (by simp)]
    simp
  · intro j hj hjne
    rw [hform]
    rcases Nat.lt_or_ge j psi with hlt | hge
    · rw [List.getD_append _ _ _ _ (by simpa using hlt)]
      exact getD_replicate_lt c psi j hlt
    · have hgt : psi < j := Nat.lt_of_le_of_ne hge (fun h => hjne h.symm)
      rw [List.getD_append_right _ _ _ _ (by simpa using hge)]
      have hidx : j - (List.replicate psi c).length = (j - psi - 1) + 1 := by
        simp only [List.length_replicate]
        omega
      rw [hidx, List.getD_cons_succ]
      exact getD_replicate_lt c (n - psi - 1) (j - psi - 1) (by omega)

/-- Witness for C9 at nclasses = 2, theta = 1, psi = 0. -/
theorem theta_to_categorical_spec_witness :
    (theta_to_categorical 2 1 0).length = 2 ∧
    (theta_to_categorical 2 1 0).sum = 1 ∧
    (∀ x ∈ theta_to_categorical 2 1 0, 0 ≤ x) ∧
    (theta_to_categorical 2 1 0).getD 0 0 = 1 ∧
    (∀ j < 2, j ≠ 0 →
      (theta_to_categorical 2 1 0).getD j 0 = (1 - 1) / ((2 : ℚ) - 1)) :=
  theta_to_categorical_spec 2 1 0 (by decide) (by decide) (by decide) (by decide)

/-! ## C1: pattern frequencies form a probability vector -/

lemma sum_map_const {α : Type} (L : List α) (k : ℕ) :
    (L.map (fun _ => k)).sum = L.length * k := by
  induction L with
  | nil => simp
  | cons a as ih => simp [ih, Nat.succ_mul, Nat.add_comm]

lemma sum_map_range (f : ℕ → ℚ) (m : ℕ) :
    ((List.range m).map f).sum = ∑ i ∈ Finset.range m, f i := by
  induction m with
  | zero => simp
  | succ p ih =>
      rw [List.range_succ, List.map_append, List.sum_append,
        Finset.sum_range_succ, ih]
      simp

lemma sum_map_flatMap {β : Type} (L : List ℕ) (f : ℕ → List β) (g : β → ℚ) :
    ((L.flatMap f).map g).sum = (L.map (fun a => ((f a).map g).sum)).sum := by
  induction L with
  | nil => rfl
  | cons a as ih => simp [List.map_append, List.sum_append, ih]

lemma getD_sum (l : List ℚ) : ∑ i ∈ Finset.range l.length, l.getD i 0 = l.sum := by
  induction l with
  | nil => simp
  | cons a as ih =>
      rw [List.length_cons, Finset.sum_range_succ']
      simp only [List.getD_cons_succ, List.getD_cons_zero, ih, List.sum_cons]
      rw [add_comm]

lemma emission_sum (n psi : ℕ) (t : ℚ) (hn : 2 ≤ n) (hpsi : psi < n) :
    ∑ v ∈ Finset.range n, emission n t v psi = 1 := by
  have hnQ : (2 : ℚ) ≤ (n : ℚ) := by exact_mod_cast hn
  have hne : ((n : ℚ) - 1) ≠ 0 := by linarith
  have hsplit : ∀ v : ℕ, emission n t v psi
      = (1 - t) / ((n : ℚ) - 1)
        + (if v = psi then t - (1 - t) / ((n : ℚ) - 1) else 0) := by
    intro v
    rw [emission]
    split <;> ring
  simp only [hsplit]
  rw [Finset.sum_add_distrib, Finset.sum_const,
    Finset.sum_ite_eq' (Finset.range n) psi
      (fun _ => t - (1 - t) / ((n : ℚ) - 1))]
  simp only [Finset.mem_range.mpr hpsi, if_true, Finset.card_range,
    nsmul_eq_mul]
  field_simp
  ring

lemma quad_sum_factor (R S : Finset ℕ) (F G H : ℕ → ℕ → ℚ) (g : ℕ → ℚ) :
    (∑ a ∈ R, ∑ b ∈ R, ∑ c ∈ R, ∑ x ∈ S, F a x * G b x * H c x * g x)
      = ∑ x ∈ S, (∑ a ∈ R, F a x) * (∑ b ∈ R, G b x) * (∑ c ∈ R, H c x) * g x := by
  have hA : ∀ a b, (∑ c ∈ R, ∑ x ∈ S, F a x * G b x * H c x * g x)
      = ∑ x ∈ S, F a x * G b x * (∑ c ∈ R, H c x) * g x := by
    intro a b
    rw [Finset.sum_comm]
    refine Finset.sum_congr rfl (fun x _ => ?_)
    rw [← Finset.sum_mul, ← Finset.mul_sum]
  have hB : ∀ a, (∑ b ∈ R, ∑ x ∈ S, F a x * G b x * (∑ c ∈ R, H c x) * g x)
      = ∑ x ∈ S, F a x * (∑ b ∈ R, G b x) * (∑ c ∈ R, H c x) * g x := by
    intro a
    rw [Finset.sum_comm]
    refine Finset.sum_congr rfl (fun x _ => ?_)
    rw [← Finset.sum_mul, ← Finset.sum_mul, ← Finset.mul_sum]
  have step1 := Finset.sum_congr (rfl : R = R)
    (fun a _ => Finset.sum_congr (rfl : R = R) (fun b _ => hA a b))
  rw [step1]
  have step2 := Finset.sum_congr (rfl : R = R) (fun a _ => hB a)
  rw [step2]
  rw [Finset.sum_comm]
  refine Finset.sum_congr rfl (fun x _ => ?_)
  rw [← Finset.sum_mul, ← Finset.sum_mul, ← Finset.sum_mul]

/-- C1: for at least two classes, gamma a nonnegative vector of length
nclasses summing to 1 and a theta triplet with components in [0, 1], the
pattern-frequency vector has length nclasses cubed and its components sum
to 1. -/
theorem pattern_frequencies_spec (n : ℕ) (gamma t : List ℚ)
    (hn : 2 ≤ n) (hg : gamma.length = n) (hgs : gamma.sum = 1)
    (hgnn : ∀ x ∈ gamma, 0 ≤ x) (ht : t.length = 3)
    (htb : ∀ x ∈ t, 0 ≤ x ∧ x ≤ 1) :
    (pattern_frequencies n gamma t).length = n ^ 3 ∧
      (pattern_frequencies n gamma t).sum = 1 := by
  constructor
  · unfold pattern_frequencies tripletCombinations
    rw [List.length_map]
    simp only [List.length_flatMap, List.length_map, List.length_range,
      Function.comp_def, sum_map_const]
    ring
  · obtain ⟨t0, t1, t2, rfl⟩ := List.length_eq_three.mp ht
    unfold pattern_frequencies tripletCombinations
    rw [sum_map_flatMap, sum_map_range]
    have h1 : ∀ a : ℕ,
        ((((List.range n).flatMap
            (fun b => (List.range n).map (fun c => (a, b, c)))).map
          (patternProb n gamma [t0, t1, t2])).sum)
          = ∑ b ∈ Finset.range n, ∑ c ∈ Finset.range n,
              patternProb n gamma [t0, t1, t2] (a, b, c) := by
      intro a
      rw [sum_map_flatMap, sum_map_range]
      refine Finset.sum_congr rfl (fun b _ => ?_)
      rw [List.map_map, sum_map_range]
      rfl
    rw [Finset.sum_congr rfl (fun a _ => h1 a)]
    have h2 : ∀ a b c : ℕ, patternProb n gamma [t0, t1, t2] (a, b, c)
        = ∑ x ∈ Finset.range n,
            emission n t0 a x * emission n t1 b x * emission n t2 c x
              * gamma.getD x 0 := by
      intro a b c
      rw [patternProb, sum_map_range]
      rfl
    simp only [h2]
    rw [quad_sum_factor]
    have hterm : ∀ x ∈ Finset.range n,
        (∑ a ∈ Finset.range n, emission n t0 a x)
            * (∑ b ∈ Finset.range n, emission n t1 b x)
            * (∑ c ∈ Finset.range n, emission n t2 c x) * gamma.getD x 0
          = gamma.getD x 0 := by
      intro x hx
      rw [emission_sum n x t0 hn (Finset.mem_range.mp hx),
        emission_sum n x t1 hn (Finset.mem_range.mp hx),
        emission_sum n x t2 hn (Finset.mem_range.mp hx)]
      ring
    rw [Finset.sum_congr rfl hterm, ← hg, getD_sum, hgs]

/-- Witness for C1 at nclasses = 2, gamma = [1, 0], theta triplet (1, 0, 1). -/
theorem pattern_frequencies_spec_witness :
    (pattern_frequencies 2 [1, 0] [1, 0, 1]).length = 2 ^ 3 ∧
      (pattern_frequencies 2 [1, 0] [1, 0, 1]).sum = 1 :=
  pattern_frequencies_spec 2 [1, 0] [1, 0, 1] (by decide) rfl (by simp)
    (by decide) rfl (by decide)

/-! ## C5 and C10: row structure of generated annotations -/

lemma theta_to_categorical_length (n : ℕ) (t : ℚ) (psi : ℕ) :
    (theta_to_categorical n t psi).length = n := by
  rw [theta_to_categorical, List.length_set, List.length_replicate]

lemma theta_to_categorical_ne_nil (n : ℕ) (hn : 1 ≤ n) (t : ℚ) (psi : ℕ) :
    theta_to_categorical n t psi ≠ [] := by
  intro h
  have hlen := congrArg List.length h
  rw [theta_to_categorical_length] at hlen
  simp at hlen
  omega

lemma annotationMatrix_getD (n nitems : ℕ) (theta : List ℚ)
    (labels : List ℕ) (rand : ℕ → ℕ → List ℚ → ℕ) (i : ℕ) (hi : i < nitems) :
    (annotationMatrix n nitems theta labels rand).getD i []
      = (List.range 8).map
          (fun j => annotationEntry n nitems theta labels rand i j) := by
  rw [annotationMatrix, List.getD_eq_getElem _ _ (by simpa using hi),
    List.getElem_map, List.getElem_range]

lemma theta_to_categorical_sum_one (n : ℕ) (t : ℚ) (psi : ℕ)
    (hn : 2 ≤ n) (hpsi : psi < n) :
    (theta_to_categorical n t psi).sum = 1 := by
  have hnQ : (2 : ℚ) ≤ (n : ℚ) := by exact_mod_cast hn
  have hne : ((n : ℚ) - 1) ≠ 0 := by linarith
  have hcast : ((n - psi - 1 : ℕ) : ℚ) = (n : ℚ) - (psi : ℚ) - 1 := by
    have hle : psi + 1 ≤ n := hpsi
    rw [Nat.sub_sub, Nat.cast_sub hle]
    push_cast
    ring
  rw [theta_to_categorical, set_replicate_eq _ _ psi n hpsi, List.sum_append,
    List.sum_cons, List.sum_replicate, List.sum_replicate, nsmul_eq_mul,
    nsmul_eq_mul]
  have hc1 : ((n : ℚ) - 1) * ((1 - t) / ((n : ℚ) - 1)) = 1 - t := by
    field_simp
  have hfact : (psi : ℚ) * ((1 - t) / ((n : ℚ) - 1))
        + ((n - psi - 1 : ℕ) : ℚ) * ((1 - t) / ((n : ℚ) - 1))
      = ((n : ℚ) - 1) * ((1 - t) / ((n : ℚ) - 1)) := by
    rw [hcast]
    ring
  linarith

lemma generate_annotations_some_iff (n nitems : ℕ) (theta : List ℚ)
    (labels : List ℕ) (rand : ℕ → ℕ → List ℚ → ℕ) (M : List (List ℤ)) :
    generate_annotations n nitems theta labels rand = some M ↔
      ((∀ i < nitems, ∀ j < 8,
          (theta_to_categorical_checked n (theta.getD j 0)
            (labels.getD i 0)).isSome) ∧
        M = annotationMatrix n nitems theta labels rand) := by
  rw [generate_annotations]
  have hiff : ((List.range nitems).all (fun i => (List.range 8).all (fun j =>
        (theta_to_categorical_checked n (theta.getD j 0)
          (labels.getD i 0)).isSome)) = true)
      ↔ (∀ i < nitems, ∀ j < 8,
          (theta_to_categorical_checked n (theta.getD j 0)
            (labels.getD i 0)).isSome) := by
    simp [List.all_eq_true, List.mem_range]
  split
  · rename_i h
    simp only [Option.some.injEq]
    constructor
    · intro heq
      exact ⟨hiff.mp h, heq.symm⟩
    · intro hc
      exact hc.2.symm
  · rename_i h
    constructor
    · intro heq
      exact Option.noConfusion heq
    · intro hc
      exact absurd (hiff.mpr hc.1) h

lemma generate_annotations_some_of (n nitems : ℕ) (theta : List ℚ)
    (labels : List ℕ) (rand : ℕ → ℕ → List ℚ → ℕ)
    (hn : 2 ≤ n) (hlab2 : ∀ x ∈ labels, x < n) :
    generate_annotations n nitems theta labels rand
      = some (annotationMatrix n nitems theta labels rand) := by
  rw [generate_annotations_some_iff]
  refine ⟨?_, rfl⟩
  intro i _ j _
  have hpsi : labels.getD i 0 < n := by
    by_cases hi : i < labels.length
    · rw [List.getD_eq_getElem _ _ hi]
      exact hlab2 _ (List.getElem_mem hi)
    · rw [List.getD_eq_default _ _ (Nat.le_of_not_lt hi)]
      omega
  rw [theta_to_categorical_checked,
    if_pos (theta_to_categorical_sum_one n _ _ hn hpsi)]
  rfl

lemma isMasked_block (nitems i l : ℕ) (hl : l < 8)
    (h1 : l * (nitems / 8) ≤ i) (h2 : i < (l + 1) * (nitems / 8)) :
    ∀ j, isMasked nitems i j = (maskedCols l).contains j := by
  intro j
  have huniq : ∀ m, m * (nitems / 8) ≤ i → i < (m + 1) * (nitems / 8) → m = l := by
    intro m hm1 hm2
    have e1 : i / (nitems / 8) = m := Nat.div_eq_of_lt_le hm1 hm2
    have e2 : i / (nitems / 8) = l := Nat.div_eq_of_lt_le h1 h2
    omega
  cases hc : (maskedCols l).contains j with
  | true =>
      have hmem : j ∈ maskedCols l := by simpa using hc
      apply List.any_eq_true.mpr
      exact ⟨l, List.mem_range.mpr hl, by simp [h1, h2, hmem]⟩
  | false =>
      have hmem : j ∉ maskedCols l := by simpa using hc
      apply List.any_eq_false.mpr
      intro m _
      by_cases hb1 : m * (nitems / 8) ≤ i
      · by_cases hb2 : i < (m + 1) * (nitems / 8)
        · have hm : m = l := huniq m hb1 hb2
          subst hm
          simp [hb1, hb2, hmem]
        · simp [hb2]
      · simp [hb1]

lemma isMasked_trailing (nitems i : ℕ) (hi : 8 * (nitems / 8) ≤ i) :
    ∀ j, isMasked nitems i j = false := by
  intro j
  apply List.any_eq_false.mpr
  intro m hm
  have hm8 : m < 8 := List.mem_range.mp hm
  have hle : (m + 1) * (nitems / 8) ≤ 8 * (nitems / 8) :=
    Nat.mul_le_mul_right _ (by omega)
  have h2 : ¬ i < (m + 1) * (nitems / 8) := Nat.not_lt.mpr (le_trans hle hi)
  simp [h2]

lemma valid_entry_of_unmasked (n nitems : ℕ) (theta : List ℚ)
    (labels : List ℕ) (rand : ℕ → ℕ → List ℚ → ℕ) (i j : ℕ)
    (hn : 1 ≤ n) (hr : ∀ i j d, d ≠ [] → rand i j d < d.length)
    (hm : isMasked nitems i j = false) :
    0 ≤ annotationEntry n nitems theta labels rand i j ∧
      annotationEntry n nitems theta labels rand i j < (n : ℤ) := by
  rw [annotationEntry, if_neg (by simp [hm])]
  have hrnd := hr i j _ (theta_to_categorical_ne_nil n hn
    (theta.getD j 0) (labels.getD i 0))
  rw [theta_to_categorical_length] at hrnd
  exact ⟨Int.natCast_nonneg _, by exact_mod_cast hrnd⟩

lemma countP_masked_eq (l : ℕ) (hl : l < 8) :
    (List.range 8).countP (fun j => (maskedCols l).contains j) = 5 := by
  revert hl
  revert l
  decide

lemma countP_unmasked_eq (l : ℕ) (hl : l < 8) :
    (List.range 8).countP (fun j => !((maskedCols l).contains j)) = 3 := by
  revert hl
  revert l
  decide

/-- C5: when nitems is divisible by 8 and the generation call returns a
matrix (no cell hits the sum-to-1 assertion failure), every row of that
matrix has exactly 3 entries that are valid class indices and exactly 5
entries equal to the missing-value sentinel -1. -/
theorem generate_annotations_row_counts (n nitems : ℕ) (theta : List ℚ)
    (labels : List ℕ) (rand : ℕ → ℕ → List ℚ → ℕ)
    (hn : 1 ≤ n) (hdiv : nitems % 8 = 0) (htheta : theta.length = 8)
    (hlab1 : labels.length = nitems) (hlab2 : ∀ x ∈ labels, x < n)
    (hr : ∀ i j d, d ≠ [] → rand i j d < d.length)
    (M : List (List ℤ))
    (hgen : generate_annotations n nitems theta labels rand = some M)
    (i : ℕ) (hi : i < nitems) :
    (M.getD i []).countP (fun x => decide (0 ≤ x ∧ x < (n : ℤ))) = 3 ∧
      (M.getD i []).count (-1) = 5 := by
  obtain ⟨-, hM⟩ :=
    (generate_annotations_some_iff n nitems theta labels rand M).mp hgen
  subst hM
  have hnplpos : 0 < nitems / 8 := by omega
  have hd := Nat.div_add_mod i (nitems / 8)
  have hm := Nat.mod_lt i hnplpos
  have h1 : (i / (nitems / 8)) * (nitems / 8) ≤ i := Nat.div_mul_le_self i _
  have h2 : i < ((i / (nitems / 8)) + 1) * (nitems / 8) := by
    rw [Nat.succ_mul, Nat.mul_comm]
    omega
  have hl8 : i / (nitems / 8) < 8 := by
    by_contra hcon
    push_neg at hcon
    have h8 : 8 * (nitems / 8) ≤ (i / (nitems / 8)) * (nitems / 8) :=
      Nat.mul_le_mul_right _ hcon
    omega
  have hmask := isMasked_block nitems i (i / (nitems / 8)) hl8 h1 h2
  rw [annotationMatrix_getD n nitems theta labels rand i hi]
  constructor
  · rw [List.countP_map]
    have hpt : (fun j => decide
          (0 ≤ annotationEntry n nitems theta labels rand i j ∧
            annotationEntry n nitems theta labels rand i j < (n : ℤ)))
        = (fun j => !((maskedCols (i / (nitems / 8))).contains j)) := by
      funext j
      cases hmE : isMasked nitems i j with
      | true =>
          have hc : (maskedCols (i / (nitems / 8))).contains j = true := by
            rw [← hmask j, hmE]
          rw [hc, annotationEntry, if_pos (by simp [hmE])]
          simp only [Bool.not_true]
          rw [decide_eq_false_iff_not]
          rintro ⟨hc1, -⟩
          omega
      | false =>
          have hc : (maskedCols (i / (nitems / 8))).contains j = false := by
            rw [← hmask j, hmE]
          rw [hc]
          simp only [Bool.not_false]
          rw [decide_eq_true_eq]
          exact valid_entry_of_unmasked n nitems theta labels rand i j hn hr hmE
    rw [show ((fun x => decide (0 ≤ x ∧ x < (n : ℤ))) ∘
          (fun j => annotationEntry n nitems theta labels rand i j))
        = (fun j => decide
            (0 ≤ annotationEntry n nitems theta labels rand i j ∧
              annotationEntry n nitems theta labels rand i j < (n : ℤ)))
      from rfl, hpt]
    exact countP_unmasked_eq _ hl8
  · rw [List.count, List.countP_map]
    have hpt : (fun j => annotationEntry n nitems theta labels rand i j == -1)
        = (fun j => (maskedCols (i / (nitems / 8))).contains j) := by
      funext j
      cases hmE : isMasked nitems i j with
      | true =>
          have hc : (maskedCols (i / (nitems / 8))).contains j = true := by
            rw [← hmask j, hmE]
          rw [hc, annotationEntry, if_pos (by simp [hmE])]
          simp
      | false =>
          have hc : (maskedCols (i / (nitems / 8))).contains j = false := by
            rw [← hmask j, hmE]
          rw [hc, annotationEntry, if_neg (by simp [hmE])]
          simp
    rw [show ((fun x => x == (-1 : ℤ)) ∘
          (fun j => annotationEntry n nitems theta labels rand i j))
        = (fun j => annotationEntry n nitems theta labels rand i j == -1)
      from rfl, hpt]
    exact countP_masked_eq _ hl8

/-- Witness for C5 at nclasses = 2, nitems = 8, theta identically 1 (every
per-cell assertion passes, so the source returns a matrix), all labels 0,
row 0, with the categorical sampler fixed to index 0. -/
theorem generate_annotations_row_counts_witness :
    ((annotationMatrix 2 8 (List.replicate 8 1) (List.replicate 8 0)
        (fun _ _ _ => 0)).getD 0 []).countP
      (fun x => decide (0 ≤ x ∧ x < (2 : ℤ))) = 3 ∧
    ((annotationMatrix 2 8 (List.replicate 8 1) (List.replicate 8 0)
        (fun _ _ _ => 0)).getD 0 []).count (-1) = 5 :=
  generate_annotations_row_counts 2 8 (List.replicate 8 1)
    (List.replicate 8 0) (fun _ _ _ => 0) (by decide) (by decide) rfl rfl
    (by decide) (fun i j d hd => List.length_pos.mpr hd) _
    (generate_annotations_some_of 2 8 (List.replicate 8 1)
      (List.replicate 8 0) (fun _ _ _ => 0) (by decide) (by decide))
    0 (by decide)

/-- C10: when nitems is not divisible by 8 and the generation call returns
a matrix, its trailing nitems mod 8 rows (indices at or beyond
8 * (nitems / 8)) are never masked: all 8 entries are valid class indices
and the missing-value sentinel -1 never occurs, so the
exactly-3-non-missing property fails there. -/
theorem generate_annotations_trailing_rows (n nitems : ℕ) (theta : List ℚ)
    (labels : List ℕ) (rand : ℕ → ℕ → List ℚ → ℕ)
    (hn : 1 ≤ n) (hmod : nitems % 8 ≠ 0) (htheta : theta.length = 8)
    (hlab1 : labels.length = nitems) (hlab2 : ∀ x ∈ labels, x < n)
    (hr : ∀ i j d, d ≠ [] → rand i j d < d.length)
    (M : List (List ℤ))
    (hgen : generate_annotations n nitems theta labels rand = some M)
    (i : ℕ) (hlow : 8 * (nitems / 8) ≤ i) (hi : i < nitems) :
    (M.getD i []).length = 8 ∧
    (M.getD i []).countP (fun x => decide (0 ≤ x ∧ x < (n : ℤ))) = 8 ∧
      (M.getD i []).count (-1) = 0 := by
  obtain ⟨-, hM⟩ :=
    (generate_annotations_some_iff n nitems theta labels rand M).mp hgen
  subst hM
  have hmask := isMasked_trailing nitems i hlow
  rw [annotationMatrix_getD n nitems theta labels rand i hi]
  refine ⟨by simp, ?_, ?_⟩
  · rw [List.countP_map]
    have hpt : (fun j => decide
          (0 ≤ annotationEntry n nitems theta labels rand i j ∧
            annotationEntry n nitems theta labels rand i j < (n : ℤ)))
        = (fun _ => true) := by
      funext j
      rw [decide_eq_true_eq]
      exact valid_entry_of_unmasked n nitems theta labels rand i j hn hr
        (hmask j)
    rw [show ((fun x => decide (0 ≤ x ∧ x < (n : ℤ))) ∘
          (fun j => annotationEntry n nitems theta labels rand i j))
        = (fun j => decide
            (0 ≤ annotationEntry n nitems theta labels rand i j ∧
              annotationEntry n nitems theta labels rand i j < (n : ℤ)))
      from rfl, hpt]
    decide
  · rw [List.count, List.countP_map]
    have hpt : (fun j => annotationEntry n nitems theta labels rand i j == -1)
        = (fun _ => false) := by
      funext j
      rw [annotationEntry, if_neg (by simp [hmask j])]
      simp
    rw [show ((fun x => x == (-1 : ℤ)) ∘
          (fun j => annotationEntry n nitems theta labels rand i j))
        = (fun j => annotationEntry n nitems theta labels rand i j == -1)
      from rfl, hpt]
    decide

/-- Witness for C10 at nclasses = 2, nitems = 9, theta identically 1 (every
per-cell assertion passes, so the source returns a matrix), all labels 0,
trailing row 8. -/
theorem generate_annotations_trailing_rows_witness :
    ((annotationMatrix 2 9 (List.replicate 8 1) (List.replicate 9 0)
        (fun _ _ _ => 0)).getD 8 []).length = 8 ∧
    ((annotationMatrix 2 9 (List.replicate 8 1) (List.replicate 9 0)
        (fun _ _ _ => 0)).getD 8 []).countP
      (fun x => decide (0 ≤ x ∧ x < (2 : ℤ))) = 8 ∧
    ((annotationMatrix 2 9 (List.replicate 8 1) (List.replicate 9 0)
        (fun _ _ _ => 0)).getD 8 []).count (-1) = 0 :=
  generate_annotations_trailing_rows 2 9 (List.replicate 8 1)
    (List.replicate 9 0) (fun _ _ _ => 0) (by decide) (by decide) rfl rfl
    (by decide) (fun i j d hd => List.length_pos.mpr hd) _
    (generate_annotations_some_of 2 9 (List.replicate 8 1)
      (List.replicate 9 0) (fun _ _ _ => 0) (by decide) (by decide))
    8 (by decide) (by decide)
